import Mathlib

/-!
Shallow embedding of the legal-document-organiser PDF normalization core.

The embedding models the angle mathematics, the page data model, the page
issue detector, the structural auto-fix pipeline, the security normalizer,
the readability-probe dispatch and the worker modification applicator,
translated from `src/App.tsx`, `src/lib/pdf-security.ts` and the worker
sources.  JavaScript numbers are modelled as rationals; the JavaScript `%`
operator (truncated remainder) is modelled explicitly by `jsMod`.
-/

namespace LegalDocOrganiser

/-! ### Geometry / angle math (App.tsx lines 202-279) -/

/-- Truncation toward zero, the rounding used by the JavaScript `%` operator. -/
def ratTrunc (q : ℚ) : ℤ :=
  if 0 ≤ q then ⌊q⌋ else ⌈q⌉

/-- JavaScript `a % n` for numbers: truncated remainder (sign of the dividend). -/
def jsMod (a n : ℚ) : ℚ :=
  a - n * (ratTrunc (a / n) : ℚ)

/-- `normalizeAngle` from App.tsx: `a % 360` mapped into `[0, 360)`. -/
def normalizeAngle (angle : ℚ) : ℚ :=
  let normalized := jsMod angle 360
  if normalized < 0 then normalized + 360 else normalized

/-- `circularDistance` from App.tsx. -/
def circularDistance (a b : ℚ) : ℚ :=
  let diff := |normalizeAngle a - normalizeAngle b|
  min diff (360 - diff)

def RIGHT_ANGLES : List ℚ := [0, 90, 180, 270]

def TEXT_ORIENTATION_TOLERANCE_DEG : ℚ := 20

/-- `snapToRightAngle` from App.tsx: fold over the right angles keeping the
candidate at minimal circular distance; the `bestDistance = +Infinity`
sentinel is modelled by `Option`. -/
def snapToRightAngle (angle : ℚ) : ℚ :=
  (RIGHT_ANGLES.foldl
    (fun best candidate =>
      let distance := circularDistance angle candidate
      match best.2 with
      | none => (candidate, some distance)
      | some bestDistance =>
        if distance < bestDistance then (candidate, some distance) else best)
    ((0 : ℚ), (none : Option ℚ))).1

/-- The `(bestAllowedDistance, turnCost)` score computed for each candidate
final rotation inside `chooseFinalPageRotationForPortrait`. -/
def rotationScore (currentPageRotation dta finalRotation : ℚ) : ℚ × ℚ :=
  let delta := normalizeAngle (finalRotation - currentPageRotation)
  let finalTextAngle := normalizeAngle (dta + finalRotation)
  let bestAllowedDistance :=
    min (circularDistance finalTextAngle 0) (circularDistance finalTextAngle 90)
  let turnCost := min delta (360 - delta)
  (bestAllowedDistance, turnCost)

/-- Strict lexicographic comparison used by the candidate sort. -/
def scoreLexLt (p q : ℚ × ℚ) : Prop :=
  p.1 < q.1 ∨ (p.1 = q.1 ∧ p.2 < q.2)

/-- Reflexive lexicographic comparison on scores. -/
def scoreLexLe (p q : ℚ × ℚ) : Prop :=
  p.1 < q.1 ∨ (p.1 = q.1 ∧ p.2 ≤ q.2)

instance (p q : ℚ × ℚ) : Decidable (scoreLexLt p q) := by
  unfold scoreLexLt; infer_instance

instance (p q : ℚ × ℚ) : Decidable (scoreLexLe p q) := by
  unfold scoreLexLe; infer_instance

/-- `chooseFinalPageRotationForPortrait` from App.tsx.  The source maps the
candidate rotations `[0, 180]` to their scores, sorts ascending with a
stable sort and takes the first element; on two elements that stable sort
returns 180 first exactly when its score is lexicographically strictly
smaller than the score of 0. -/
def chooseFinalPageRotationForPortrait (currentPageRotation : ℚ)
    (dominantTextAngle : Option ℚ) : ℚ :=
  match dominantTextAngle with
  | none => 0
  | some dta =>
    if scoreLexLt (rotationScore currentPageRotation dta 180)
        (rotationScore currentPageRotation dta 0)
    then 180 else 0

/-- `getUpsideDownCorrectionFromAngle` from App.tsx. -/
def getUpsideDownCorrectionFromAngle (dominantTextAngle : Option ℚ)
    (pageRotation : ℚ) : ℚ :=
  match dominantTextAngle with
  | none => 0
  | some dta =>
    let visibleTextAngle := normalizeAngle (dta + pageRotation)
    let allowedDistance :=
      min (circularDistance visibleTextAngle 0) (circularDistance visibleTextAngle 90)
    let upsideDistance :=
      min (circularDistance visibleTextAngle 180) (circularDistance visibleTextAngle 270)
    if upsideDistance ≤ TEXT_ORIENTATION_TOLERANCE_DEG ∧ upsideDistance < allowedDistance
    then 180 else 0

/-! ### Basic angle lemmas -/

theorem normalizeAngle_eq_sub_floor (a : ℚ) :
    normalizeAngle a = a - 360 * (⌊a / 360⌋ : ℚ) := by
  unfold normalizeAngle jsMod ratTrunc
  rcases le_or_lt 0 (a / 360) with h | h
  · simp only [if_pos h]
    have hge : (0 : ℚ) ≤ a - 360 * (⌊a / 360⌋ : ℚ) := by
      have := Int.floor_le (a / 360)
      nlinarith
    rw [if_neg (by linarith)]
  · simp only [if_neg (not_le.mpr h)]
    by_cases hfr : Int.fract (a / 360) = 0
    · have hceil : (⌈a / 360⌉ : ℤ) = ⌊a / 360⌋ := by
        have : (a / 360) = (⌊a / 360⌋ : ℚ) := by
          have := Int.fract_add_floor (a / 360)
          rw [hfr] at this; linarith
        rw [this]; simp
      rw [hceil]
      have hz : a - 360 * (⌊a / 360⌋ : ℚ) = 0 := by
        have : (a / 360) = (⌊a / 360⌋ : ℚ) := by
          have := Int.fract_add_floor (a / 360)
          rw [hfr] at this; linarith
        field_simp at this
        linarith
      rw [hz]
      norm_num
    · have hfr0 : 0 < Int.fract (a / 360) :=
        lt_of_le_of_ne (Int.fract_nonneg _) (Ne.symm hfr)
      have hceil : (⌈a / 360⌉ : ℤ) = ⌊a / 360⌋ + 1 := by
        rw [Int.ceil_eq_iff]
        constructor
        · have hfr' : 0 < a / 360 - (⌊a / 360⌋ : ℚ) := by
            have := Int.self_sub_floor (a / 360)
            rw [this]; exact hfr0
          push_cast
          linarith
        · push_cast
          have := Int.lt_floor_add_one (a / 360)
          linarith
      rw [hceil]
      have hlt0 : a - 360 * ((⌊a / 360⌋ : ℚ) + 1) < 0 := by
        have := Int.lt_floor_add_one (a / 360)
        nlinarith
      push_cast
      rw [if_pos (by linarith)]
      ring

theorem normalizeAngle_nonneg (a : ℚ) : 0 ≤ normalizeAngle a := by
  rw [normalizeAngle_eq_sub_floor]
  have := Int.floor_le (a / 360)
  nlinarith

theorem normalizeAngle_lt (a : ℚ) : normalizeAngle a < 360 := by
  rw [normalizeAngle_eq_sub_floor]
  have := Int.lt_floor_add_one (a / 360)
  nlinarith

theorem normalizeAngle_eq_self {a : ℚ} (h0 : 0 ≤ a) (h1 : a < 360) :
    normalizeAngle a = a := by
  rw [normalizeAngle_eq_sub_floor]
  have hfl : ⌊a / 360⌋ = 0 := by
    rw [Int.floor_eq_zero_iff]
    constructor
    · positivity
    · rw [div_lt_one (by norm_num)]; linarith
  rw [hfl]
  push_cast
  ring

/-! ### Snap lemmas -/

/-- The loop body of `snapToRightAngle`. -/
def snapStep (angle : ℚ) (best : ℚ × Option ℚ) (candidate : ℚ) : ℚ × Option ℚ :=
  let distance := circularDistance angle candidate
  match best.2 with
  | none => (candidate, some distance)
  | some bestDistance =>
    if distance < bestDistance then (candidate, some distance) else best

theorem snapToRightAngle_eq_foldl (a : ℚ) :
    snapToRightAngle a = (RIGHT_ANGLES.foldl (snapStep a) ((0 : ℚ), none)).1 := rfl

theorem snapFold_min (a : ℚ) :
    ∀ (l : List ℚ) (b bd : ℚ), bd = circularDistance a b →
      ∃ rb rd, l.foldl (snapStep a) (b, some bd) = (rb, some rd) ∧
        rd = circularDistance a rb ∧ rd ≤ bd ∧
        (∀ c ∈ l, rd ≤ circularDistance a c) ∧ (rb = b ∨ rb ∈ l) := by
  intro l
  induction l with
  | nil =>
    intro b bd hb
    refine ⟨b, bd, rfl, hb, le_refl _, ?_, Or.inl rfl⟩
    intro c hc
    cases hc
  | cons c rest ih =>
    intro b bd hb
    rw [List.foldl_cons]
    show ∃ rb rd, (rest.foldl (snapStep a) (snapStep a (b, some bd) c)) = _ ∧ _
    unfold snapStep
    dsimp only
    by_cases hlt : circularDistance a c < bd
    · rw [if_pos hlt]
      obtain ⟨rb, rd, heq, hrd, hle, hmin, hmem⟩ :=
        ih c (circularDistance a c) rfl
      refine ⟨rb, rd, heq, hrd, le_of_lt (lt_of_le_of_lt hle hlt), ?_, ?_⟩
      · intro x hx
        rcases List.mem_cons.mp hx with rfl | hx
        · exact hle
        · exact hmin x hx
      · rcases hmem with rfl | hmem
        · exact Or.inr (List.mem_cons_self _ _)
        · exact Or.inr (List.mem_cons_of_mem _ hmem)
    · rw [if_neg hlt]
      obtain ⟨rb, rd, heq, hrd, hle, hmin, hmem⟩ := ih b bd hb
      refine ⟨rb, rd, heq, hrd, hle, ?_, ?_⟩
      · intro x hx
        rcases List.mem_cons.mp hx with rfl | hx
        · exact le_trans hle (not_lt.mp hlt)
        · exact hmin x hx
      · rcases hmem with rfl | hmem
        · exact Or.inl rfl
        · exact Or.inr (List.mem_cons_of_mem _ hmem)

theorem snapToRightAngle_spec (a : ℚ) :
    snapToRightAngle a ∈ RIGHT_ANGLES ∧
      ∀ c ∈ RIGHT_ANGLES,
        circularDistance a (snapToRightAngle a) ≤ circularDistance a c := by
  have h0 : RIGHT_ANGLES.foldl (snapStep a) ((0 : ℚ), none) =
      [90, 180, 270].foldl (snapStep a) ((0 : ℚ), some (circularDistance a 0)) := rfl
  obtain ⟨rb, rd, heq, hrd, hle, hmin, hmem⟩ :=
    snapFold_min a [90, 180, 270] 0 (circularDistance a 0) rfl
  have hsnap : snapToRightAngle a = rb := by
    rw [snapToRightAngle_eq_foldl, h0, heq]
  constructor
  · rw [hsnap]
    rcases hmem with rfl | hmem
    · exact List.mem_cons_self _ _
    · unfold RIGHT_ANGLES
      exact List.mem_cons_of_mem _ hmem
  · intro c hc
    rw [hsnap, ← hrd]
    rcases List.mem_cons.mp hc with rfl | hc
    · exact hle
    · exact hmin c hc

theorem circularDistance_eval {a b : ℚ} (ha0 : 0 ≤ a) (ha1 : a < 360)
    (hb0 : 0 ≤ b) (hb1 : b < 360) :
    circularDistance a b = min |a - b| (360 - |a - b|) := by
  unfold circularDistance
  rw [normalizeAngle_eq_self ha0 ha1, normalizeAngle_eq_self hb0 hb1]

theorem circularDistance_self (a : ℚ) : circularDistance a a = 0 := by
  unfold circularDistance
  simp

theorem circularDistance_eq_zero {a b : ℚ} (ha0 : 0 ≤ a) (ha1 : a < 360)
    (hb0 : 0 ≤ b) (hb1 : b < 360) (h : circularDistance a b = 0) : a = b := by
  rw [circularDistance_eval ha0 ha1 hb0 hb1] at h
  rcases min_eq_iff.mp h with ⟨h1, _⟩ | ⟨h1, _⟩
  · have := abs_eq_zero.mp h1; linarith
  · have habs : |a - b| = 360 := by linarith
    rcases abs_eq (by norm_num : (0:ℚ) ≤ 360) |>.mp habs with h' | h' <;> linarith

theorem right_angles_bounds : ∀ c ∈ RIGHT_ANGLES, 0 ≤ c ∧ c < 360 := by
  intro c hc
  fin_cases hc <;> norm_num

/-- Claim C7: for every angle `a` in `[0, 360)`, the circular distance from
`a` to `snapToRightAngle a` is at most 45, and `snapToRightAngle` is
idempotent. -/
theorem snapToRightAngle_within_45_and_idempotent (a : ℚ)
    (h0 : 0 ≤ a) (h1 : a < 360) :
    circularDistance a (snapToRightAngle a) ≤ 45 ∧
      snapToRightAngle (snapToRightAngle a) = snapToRightAngle a := by
  obtain ⟨hmem, hmin⟩ := snapToRightAngle_spec a
  constructor
  · have hnear : ∃ c ∈ RIGHT_ANGLES, circularDistance a c ≤ 45 := by
      rcases le_or_lt a 45 with hc | hc
      · refine ⟨0, by norm_num [RIGHT_ANGLES], ?_⟩
        rw [circularDistance_eval h0 h1 (by norm_num) (by norm_num)]
        have : |a - 0| = a := by rw [sub_zero, abs_of_nonneg h0]
        rw [this]
        exact le_trans (min_le_left _ _) hc
      rcases le_or_lt a 135 with hc' | hc'
      · refine ⟨90, by norm_num [RIGHT_ANGLES], ?_⟩
        rw [circularDistance_eval h0 h1 (by norm_num) (by norm_num)]
        have : |a - 90| ≤ 45 := abs_le.mpr ⟨by linarith, by linarith⟩
        exact le_trans (min_le_left _ _) this
      rcases le_or_lt a 225 with hc'' | hc''
      · refine ⟨180, by norm_num [RIGHT_ANGLES], ?_⟩
        rw [circularDistance_eval h0 h1 (by norm_num) (by norm_num)]
        have : |a - 180| ≤ 45 := abs_le.mpr ⟨by linarith, by linarith⟩
        exact le_trans (min_le_left _ _) this
      rcases le_or_lt a 315 with hc3 | hc3
      · refine ⟨270, by norm_num [RIGHT_ANGLES], ?_⟩
        rw [circularDistance_eval h0 h1 (by norm_num) (by norm_num)]
        have : |a - 270| ≤ 45 := abs_le.mpr ⟨by linarith, by linarith⟩
        exact le_trans (min_le_left _ _) this
      · refine ⟨0, by norm_num [RIGHT_ANGLES], ?_⟩
        rw [circularDistance_eval h0 h1 (by norm_num) (by norm_num)]
        have : |a - 0| = a := by rw [sub_zero, abs_of_nonneg h0]
        rw [this]
        have : 360 - a ≤ 45 := by linarith
        exact le_trans (min_le_right _ _) this
    obtain ⟨c, hc, hc45⟩ := hnear
    exact le_trans (hmin c hc) hc45
  · obtain ⟨hs0, hs1⟩ := right_angles_bounds _ hmem
    obtain ⟨hmem', hmin'⟩ := snapToRightAngle_spec (snapToRightAngle a)
    obtain ⟨ht0, ht1⟩ := right_angles_bounds _ hmem'
    have hle : circularDistance (snapToRightAngle a)
        (snapToRightAngle (snapToRightAngle a)) ≤ 0 := by
      have := hmin' (snapToRightAngle a) hmem
      rwa [circularDistance_self] at this
    have hge : 0 ≤ circularDistance (snapToRightAngle a)
        (snapToRightAngle (snapToRightAngle a)) := by
      rw [circularDistance_eval hs0 hs1 ht0 ht1]
      have habs : |snapToRightAngle a - snapToRightAngle (snapToRightAngle a)| < 360 := by
        rw [abs_sub_lt_iff]
        constructor <;> linarith
      exact le_min (abs_nonneg _) (by linarith)
    exact (circularDistance_eq_zero hs0 hs1 ht0 ht1 (le_antisymm hle hge)).symm

/-- Witness for Claim C7 at the concrete angle 100. -/
theorem snapToRightAngle_within_45_and_idempotent_witness :
    circularDistance 100 (snapToRightAngle 100) ≤ 45 ∧
      snapToRightAngle (snapToRightAngle 100) = snapToRightAngle 100 :=
  snapToRightAngle_within_45_and_idempotent 100 (by norm_num) (by norm_num)

theorem scoreLexLe_refl (p : ℚ × ℚ) : scoreLexLe p p :=
  Or.inr ⟨rfl, le_refl _⟩

theorem scoreLexLe_of_lt {p q : ℚ × ℚ} (h : scoreLexLt p q) : scoreLexLe p q := by
  rcases h with h | ⟨h1, h2⟩
  · exact Or.inl h
  · exact Or.inr ⟨h1, le_of_lt h2⟩

theorem scoreLexLe_of_not_lt {p q : ℚ × ℚ} (h : ¬ scoreLexLt q p) : scoreLexLe p q := by
  unfold scoreLexLt at h
  push_neg at h
  rcases lt_trichotomy p.1 q.1 with h1 | h1 | h1
  · exact Or.inl h1
  · exact Or.inr ⟨h1, h.2 h1.symm⟩
  · exact absurd h1 (not_lt.mpr h.1)

/-- Claim C6: `chooseFinalPageRotationForPortrait` returns 0 when no text
angle was detected; otherwise it returns a candidate from `{0, 180}` whose
`(bestAllowedDistance, turnCost)` score is lexicographically minimal among
the two candidates. -/
theorem chooseFinalPageRotationForPortrait_spec (current dta : ℚ) :
    chooseFinalPageRotationForPortrait current none = 0 ∧
      (chooseFinalPageRotationForPortrait current (some dta) = 0 ∨
        chooseFinalPageRotationForPortrait current (some dta) = 180) ∧
      ∀ c : ℚ, c = 0 ∨ c = 180 →
        scoreLexLe
          (rotationScore current dta (chooseFinalPageRotationForPortrait current (some dta)))
          (rotationScore current dta c) := by
  have hred : chooseFinalPageRotationForPortrait current (some dta) =
      if scoreLexLt (rotationScore current dta 180) (rotationScore current dta 0)
      then 180 else 0 := rfl
  refine ⟨rfl, ?_, ?_⟩
  · rw [hred]
    split_ifs
    · exact Or.inr rfl
    · exact Or.inl rfl
  · intro c hc
    rw [hred]
    split_ifs with h
    · rcases hc with rfl | rfl
      · exact scoreLexLe_of_lt h
      · exact scoreLexLe_refl _
    · rcases hc with rfl | rfl
      · exact scoreLexLe_refl _
      · exact scoreLexLe_of_not_lt h

/-- Witness for Claim C6 at current rotation 37 and detected angle 90. -/
theorem chooseFinalPageRotationForPortrait_spec_witness :
    chooseFinalPageRotationForPortrait 37 none = 0 ∧
      (chooseFinalPageRotationForPortrait 37 (some 90) = 0 ∨
        chooseFinalPageRotationForPortrait 37 (some 90) = 180) ∧
      scoreLexLe
        (rotationScore 37 90 (chooseFinalPageRotationForPortrait 37 (some 90)))
        (rotationScore 37 90 0) :=
  ⟨(chooseFinalPageRotationForPortrait_spec 37 90).1,
    (chooseFinalPageRotationForPortrait_spec 37 90).2.1,
    (chooseFinalPageRotationForPortrait_spec 37 90).2.2 0 (Or.inl rfl)⟩

/-! ### Page data model

A `Page` models the pdf-lib page state the core mutates: the page box,
the stored `/Rotate` value (pdf-lib stores the raw degree number given to
`setRotation`, only asserting it is a multiple of 90), the content-stream
transform operators appended by `scaleContent` / `translateContent`, and
the annotation arrays (Rect and QuadPoints).  Array entries that are not
numbers are preserved untouched by the annotation transform, as in the
source. -/

inductive ContentOp where
  | scaleOp (sx sy : ℚ)
  | translateOp (dx dy : ℚ)
deriving DecidableEq

inductive AnnElem where
  | num (q : ℚ)
  | other
deriving DecidableEq

structure Annot where
  rect : Option (List AnnElem)
  quadPoints : Option (List AnnElem)
deriving DecidableEq

structure Page where
  width : ℚ
  height : ℚ
  rotation : ℚ
  ops : List ContentOp
  annots : List Annot
deriving DecidableEq

def A4_WIDTH : ℚ := 595.28

def A4_HEIGHT : ℚ := 841.89

/-- `scaleAndTranslateAnnotationArray` from App.tsx / the worker: walk the
array two entries at a time; when both entries of a pair are numbers,
replace them by `x * scale + dx` and `y * scale + dy`. -/
def scaleAndTranslateAnnotationArray (scale dx dy : ℚ) : List AnnElem → List AnnElem
  | AnnElem.num x :: AnnElem.num y :: rest =>
    AnnElem.num (x * scale + dx) :: AnnElem.num (y * scale + dy) ::
      scaleAndTranslateAnnotationArray scale dx dy rest
  | x :: y :: rest => x :: y :: scaleAndTranslateAnnotationArray scale dx dy rest
  | l => l

/-- `scaleAndTranslatePageAnnotations`: transform the Rect and QuadPoints
arrays of every annotation of the page. -/
def scaleAndTranslatePageAnnotations (scale dx dy : ℚ) (a : Annot) : Annot :=
  { rect := a.rect.map (scaleAndTranslateAnnotationArray scale dx dy),
    quadPoints := a.quadPoints.map (scaleAndTranslateAnnotationArray scale dx dy) }

/-- The shared fit-and-center geometry update (App.tsx auto-fix step and the
worker fitToA4 branch): set the page box to exactly A4, append the uniform
content scale and the centering translation, and apply the same transform
to every annotation array. -/
def fitPageToA4 (p : Page) : Page :=
  let scale := min (A4_WIDTH / p.width) (A4_HEIGHT / p.height)
  let scaledWidth := p.width * scale
  let scaledHeight := p.height * scale
  let dx := (A4_WIDTH - scaledWidth) / 2
  let dy := (A4_HEIGHT - scaledHeight) / 2
  { p with
    width := A4_WIDTH, height := A4_HEIGHT,
    ops := p.ops ++ [ContentOp.scaleOp scale scale, ContentOp.translateOp dx dy],
    annots := p.annots.map (scaleAndTranslatePageAnnotations scale dx dy) }

/-! ### Page issue detector (App.tsx `getIssuesFromDoc`, lines 546-606) -/

structure PageIssue where
  pageIndex : Nat
  issueType : String
  description : String
deriving DecidableEq

/-- The per-page check of `getIssuesFromDoc`.  Mirrors the source exactly:
the mutable `type` variable is assigned "size", then conditionally
"orientation", "size", "orientation", "both" in order; the final value is
given by the equivalent nested conditional. -/
def checkPage (index : Nat) (page : Page) : Option PageIssue :=
  let isPortrait := page.width ≤ page.height
  let isPortraitRotation := jsMod page.rotation 180 = 0
  let isA4Dimensions :=
    |page.width - A4_WIDTH| ≤ 5 ∧ |page.height - A4_HEIGHT| ≤ 5
  if ¬ isPortrait ∨ ¬ isA4Dimensions ∨ ¬ isPortraitRotation then
    let parts :=
      (if ¬ isPortrait then ["Landscape Page Box"] else []) ++
      (if ¬ isA4Dimensions then ["Non-A4 Size"] else []) ++
      (if ¬ isPortraitRotation then ["Sideways Page Rotation"] else [])
    let t : String :=
      if (¬ isPortrait ∨ ¬ isPortraitRotation) ∧ ¬ isA4Dimensions then "both"
      else if ¬ isPortraitRotation then "orientation"
      else if ¬ isA4Dimensions then "size"
      else if ¬ isPortrait then "orientation"
      else "size"
    some ⟨index, t, String.intercalate ", " parts⟩
  else none

def issuesFromPages : Nat → List Page → List PageIssue
  | _, [] => []
  | index, page :: rest =>
    match checkPage index page with
    | some issue => issue :: issuesFromPages (index + 1) rest
    | none => issuesFromPages (index + 1) rest

/-- `getIssuesFromDoc` from App.tsx, on a readable document (the claims
about it presuppose no malformed page objects, so the per-page catch
branch that emits a "Malformed page object" issue is unreachable in this
model). -/
def getIssuesFromDoc (doc : List Page) : List PageIssue :=
  issuesFromPages 0 doc

/-! ### Structural auto-fix pipeline (App.tsx `autoFixPdf`, lines 1626-1823)

The two text-angle detection passes call the rendering engine; their
results enter the pipeline as the oracle inputs `textAngles` (pre-fix
angles) and `finalAngles` (angles re-detected from the first-pass bytes).
Parsing and serialising between passes is the identity on the abstract
page state. -/

def mapFromIndex (f : Nat → α → β) : Nat → List α → List β
  | _, [] => []
  | i, x :: xs => f i x :: mapFromIndex f (i + 1) xs

/-- One page of the first pass: choose the final rotation from the detected
text angle, store it, then fit the page into A4. -/
def fixPageFirstPass (textAngle : Option ℚ) (p : Page) : Page :=
  let currentRotation := normalizeAngle p.rotation
  let nextRotation := chooseFinalPageRotationForPortrait currentRotation textAngle
  fitPageToA4 { p with rotation := nextRotation }

/-- One page of the upside-down correction sub-pass: if the re-detected
text angle says the page is upside down, add 180 to the (normalised)
rotation. -/
def fixPageSecondPass (finalAngles : List (Option ℚ)) (i : Nat) (p : Page) : Page :=
  let rotation := normalizeAngle p.rotation
  if i < finalAngles.length ∧
      getUpsideDownCorrectionFromAngle (finalAngles.getD i none) rotation = 180
  then { p with rotation := rotation + 180 }
  else p

structure AutoFixResult where
  doc : List Page
  pageCount : Nat
  autoFixApplied : Bool

/-- The fix bookkeeping of `autoFixPdf` (`markFix` calls): a page is marked
with a rotation fix when the chosen rotation differs from the current one
or the correction sub-pass touched it, and with a scaling fix when a page
dimension differed from A4 by more than 0.5pt. -/
def pageFixFlags (textAngles finalAngles : List (Option ℚ)) (i : Nat) (p : Page) :
    Bool × Bool :=
  let currentRotation := normalizeAngle p.rotation
  let nextRotation :=
    chooseFinalPageRotationForPortrait currentRotation (textAngles.getD i none)
  let firstPassPage := fixPageFirstPass (textAngles.getD i none) p
  let rotationFix :=
    decide (nextRotation ≠ currentRotation) ||
      decide (i < finalAngles.length ∧
        getUpsideDownCorrectionFromAngle (finalAngles.getD i none)
          (normalizeAngle firstPassPage.rotation) = 180)
  let scalingFix :=
    decide (|p.width - A4_WIDTH| > 1/2 ∨ |p.height - A4_HEIGHT| > 1/2)
  (rotationFix, scalingFix)

/-- The structural path of `autoFixPdf`: first pass over every page, then
the upside-down correction sub-pass.  `autoFixApplied` is true when the
fix map is non-empty. -/
def autoFixPdf (doc : List Page) (textAngles finalAngles : List (Option ℚ)) :
    AutoFixResult :=
  let firstPass := mapFromIndex (fun i p => fixPageFirstPass (textAngles.getD i none) p) 0 doc
  let finalDoc := mapFromIndex (fixPageSecondPass finalAngles) 0 firstPass
  let flags := mapFromIndex (pageFixFlags textAngles finalAngles) 0 doc
  { doc := finalDoc,
    pageCount := doc.length,
    autoFixApplied := flags.any (fun fl => fl.1 || fl.2) }

/-! ### Claim C1: the auto-fixed document passes the issue detector -/

theorem chooseFinalPageRotationForPortrait_mem (current : ℚ) (o : Option ℚ) :
    chooseFinalPageRotationForPortrait current o = 0 ∨
      chooseFinalPageRotationForPortrait current o = 180 := by
  cases o with
  | none => exact Or.inl rfl
  | some dta =>
    have hred : chooseFinalPageRotationForPortrait current (some dta) =
        if scoreLexLt (rotationScore current dta 180) (rotationScore current dta 0)
        then 180 else 0 := rfl
    rw [hred]
    split_ifs
    · exact Or.inr rfl
    · exact Or.inl rfl

theorem normalizeAngle_zero : normalizeAngle 0 = 0 :=
  normalizeAngle_eq_self (by norm_num) (by norm_num)

theorem normalizeAngle_180 : normalizeAngle 180 = 180 :=
  normalizeAngle_eq_self (by norm_num) (by norm_num)

theorem jsMod_zero_180 : jsMod 0 180 = 0 := by
  norm_num [jsMod, ratTrunc]

theorem jsMod_180_180 : jsMod 180 180 = 0 := by
  norm_num [jsMod, ratTrunc]

theorem jsMod_360_180 : jsMod 360 180 = 0 := by
  norm_num [jsMod, ratTrunc]

theorem checkPage_none {i : Nat} {p : Page} (hw : p.width = A4_WIDTH)
    (hh : p.height = A4_HEIGHT) (hr : jsMod p.rotation 180 = 0) :
    checkPage i p = none := by
  norm_num [checkPage, hw, hh, hr, A4_WIDTH, A4_HEIGHT]

theorem issuesFromPages_empty {l : List Page}
    (h : ∀ p ∈ l, p.width = A4_WIDTH ∧ p.height = A4_HEIGHT ∧
      jsMod p.rotation 180 = 0) :
    ∀ idx, issuesFromPages idx l = [] := by
  induction l with
  | nil => intro idx; rfl
  | cons p rest ih =>
    intro idx
    obtain ⟨hw, hh, hr⟩ := h p (List.mem_cons_self _ _)
    unfold issuesFromPages
    rw [checkPage_none hw hh hr]
    exact ih (fun q hq => h q (List.mem_cons_of_mem _ hq)) _

theorem mem_mapFromIndex {f : Nat → α → β} :
    ∀ {i : Nat} {l : List α} {q : β}, q ∈ mapFromIndex f i l →
      ∃ j x, x ∈ l ∧ q = f j x := by
  intro i l
  induction l generalizing i with
  | nil => intro q hq; cases hq
  | cons x xs ih =>
    intro q hq
    rcases List.mem_cons.mp hq with rfl | hq
    · exact ⟨i, x, List.mem_cons_self _ _, rfl⟩
    · obtain ⟨j, y, hy, rfl⟩ := ih hq
      exact ⟨j, y, List.mem_cons_of_mem _ hy, rfl⟩

theorem fixPageFirstPass_shape (ta : Option ℚ) (p : Page) :
    (fixPageFirstPass ta p).width = A4_WIDTH ∧
      (fixPageFirstPass ta p).height = A4_HEIGHT ∧
      ((fixPageFirstPass ta p).rotation = 0 ∨ (fixPageFirstPass ta p).rotation = 180) := by
  unfold fixPageFirstPass fitPageToA4
  refine ⟨rfl, rfl, ?_⟩
  exact chooseFinalPageRotationForPortrait_mem _ _

theorem fixPageSecondPass_shape (fa : List (Option ℚ)) (i : Nat) {p : Page}
    (hw : p.width = A4_WIDTH) (hh : p.height = A4_HEIGHT)
    (hr : p.rotation = 0 ∨ p.rotation = 180) :
    (fixPageSecondPass fa i p).width = A4_WIDTH ∧
      (fixPageSecondPass fa i p).height = A4_HEIGHT ∧
      ((fixPageSecondPass fa i p).rotation = 0 ∨
        (fixPageSecondPass fa i p).rotation = 180 ∨
        (fixPageSecondPass fa i p).rotation = 360) := by
  unfold fixPageSecondPass
  dsimp only
  split_ifs with hcond
  · refine ⟨hw, hh, ?_⟩
    rcases hr with h0 | h180
    · rw [h0, normalizeAngle_zero]
      norm_num
    · rw [h180, normalizeAngle_180]
      norm_num
  · exact ⟨hw, hh, hr.imp id Or.inl⟩

/-- Claim C1: whenever the structural auto-fix pipeline reports
`autoFixApplied = true` (no malformed pages occur in this data model, so
the fail-fast branch is vacuous), running the page issue detector on the
document it returns yields an empty issue list. -/
theorem autoFixPdf_issues_empty (doc : List Page) (ta fa : List (Option ℚ))
    (_h : (autoFixPdf doc ta fa).autoFixApplied = true) :
    getIssuesFromDoc (autoFixPdf doc ta fa).doc = [] := by
  unfold getIssuesFromDoc
  apply issuesFromPages_empty
  intro p hp
  show p.width = A4_WIDTH ∧ p.height = A4_HEIGHT ∧ jsMod p.rotation 180 = 0
  have hp' : p ∈ mapFromIndex (fixPageSecondPass fa) 0
      (mapFromIndex (fun i q => fixPageFirstPass (ta.getD i none) q) 0 doc) := hp
  obtain ⟨j, x, hx, rfl⟩ := mem_mapFromIndex hp'
  obtain ⟨k, y, _, rfl⟩ := mem_mapFromIndex hx
  obtain ⟨hw, hh, hr⟩ := fixPageFirstPass_shape (ta.getD k none) y
  obtain ⟨hw', hh', hr'⟩ := fixPageSecondPass_shape fa j hw hh hr
  refine ⟨hw', hh', ?_⟩
  rcases hr' with h | h | h <;> rw [h]
  · exact jsMod_zero_180
  · exact jsMod_180_180
  · exact jsMod_360_180

/-- Witness for Claim C1: a single landscape-box non-A4 page with no text
evidence; the scaling fix marks the page, so `autoFixApplied` is true. -/
theorem autoFixPdf_issues_empty_witness :
    (autoFixPdf [⟨100, 200, 0, [], []⟩] [none] [none]).autoFixApplied = true ∧
      getIssuesFromDoc (autoFixPdf [⟨100, 200, 0, [], []⟩] [none] [none]).doc = [] := by
  have happ : (autoFixPdf [⟨100, 200, 0, [], []⟩] [none] [none]).autoFixApplied = true := by
    show (mapFromIndex (pageFixFlags [none] [none]) 0 [⟨100, 200, 0, [], []⟩]).any
      (fun fl => fl.1 || fl.2) = true
    have hscale : (pageFixFlags [none] [none] 0 ⟨100, 200, 0, [], []⟩).2 = true := by
      simp only [pageFixFlags]
      rw [decide_eq_true_eq]
      left
      rw [show |(100 : ℚ) - A4_WIDTH| = A4_WIDTH - 100 from
        abs_sub_comm (100 : ℚ) A4_WIDTH ▸ abs_of_nonneg (by norm_num [A4_WIDTH])]
      norm_num [A4_WIDTH]
    simp [mapFromIndex, List.any, hscale]
  exact ⟨happ, autoFixPdf_issues_empty _ _ _ happ⟩

/-! ### Modification applicator (worker `applyModifications`)

The pdf-lib `setRotation` call asserts the given degree value is a multiple of
90 and throws otherwise; the worker catches per-page errors and leaves the
page unchanged, which the guard in `setRotationChecked` models.  The
stored rotation is the raw number passed in, with no normalisation. -/

inductive PageModification where
  | rotate (pageIndices : List ℤ) (angle : ℚ)
  | fitToA4 (pageIndices : List ℤ)
deriving DecidableEq

def PageModification.pageIndices : PageModification → List ℤ
  | .rotate l _ => l
  | .fitToA4 l => l

def PageModification.withPageIndices : PageModification → List ℤ → PageModification
  | .rotate _ a, l => .rotate l a
  | .fitToA4 _, l => .fitToA4 l

/-- `page.setRotation(degrees(newAngle))` under the per-page worker
try/catch: stores the raw angle if it is a multiple of 90, otherwise the
assertion throws and the page is left untouched. -/
def setRotationChecked (newAngle : ℚ) (p : Page) : Page :=
  if jsMod newAngle 90 = 0 then { p with rotation := newAngle } else p

/-- One modification applied to every page of the document (the worker
loops `i` over `0 ≤ i < pageCount` and tests `indices.has(i)`). -/
def applyModification (doc : List Page) : PageModification → List Page
  | .rotate indices angle =>
    mapFromIndex
      (fun i p => if (i : ℤ) ∈ indices then setRotationChecked (p.rotation + angle) p else p)
      0 doc
  | .fitToA4 indices =>
    mapFromIndex (fun i p => if (i : ℤ) ∈ indices then fitPageToA4 p else p) 0 doc

/-- `applyModifications` from the worker: fold the ordered modification
list over the document. -/
def applyModifications (doc : List Page) (modifications : List PageModification) :
    List Page :=
  modifications.foldl applyModification doc

theorem mapFromIndex_length (f : Nat → α → β) :
    ∀ (k : Nat) (l : List α), (mapFromIndex f k l).length = l.length := by
  intro k l
  induction l generalizing k with
  | nil => rfl
  | cons x xs ih => simp [mapFromIndex, ih]

theorem mapFromIndex_getD (f : Nat → α → α) (d : α) :
    ∀ (l : List α) (k i : Nat), i < l.length →
      (mapFromIndex f k l).getD i d = f (k + i) (l.getD i d) := by
  intro l
  induction l with
  | nil => intro k i h; cases h
  | cons x xs ih =>
    intro k i h
    cases i with
    | zero => simp [mapFromIndex]
    | succ n =>
      have hn : n < xs.length := by simpa using Nat.lt_of_succ_lt_succ h
      simp only [mapFromIndex, List.getD_cons_succ]
      rw [ih (k + 1) n hn]
      ring_nf

theorem mapFromIndex_congr_bounded {f g : Nat → α → β} :
    ∀ (l : List α) (k : Nat),
      (∀ i x, k ≤ i → i < k + l.length → f i x = g i x) →
      mapFromIndex f k l = mapFromIndex g k l := by
  intro l
  induction l with
  | nil => intro k _; rfl
  | cons x xs ih =>
    intro k h
    unfold mapFromIndex
    rw [h k x (le_refl _) (by simp),
      ih (k + 1) (fun i y h1 h2 =>
        h i y (by omega) (by simp only [List.length_cons]; omega))]

theorem jsMod_360_90 : jsMod 360 90 = 0 := by
  norm_num [jsMod, ratTrunc]

theorem normalizeAngle_360 : normalizeAngle 360 = 0 := by
  rw [normalizeAngle_eq_sub_floor]
  norm_num

/-- Counterexample for Claim C3: a page with stored rotation 270 rotated by
+90 ends with stored rotation 360, while the claim demands the stored
value `(270 + 90) mod 360 = 0`, inside `[0, 360)`. -/
theorem applyModifications_rotate_cex :
    ((applyModifications [⟨100, 200, 270, [], []⟩]
        [PageModification.rotate [0] 90]).getD 0 ⟨0, 0, 0, [], []⟩).rotation = 360 ∧
      normalizeAngle (270 + 90) = 0 := by
  constructor
  · have h1 : applyModifications [⟨100, 200, 270, [], []⟩]
        [PageModification.rotate [0] 90] =
        applyModification [⟨100, 200, 270, [], []⟩]
          (PageModification.rotate [0] 90) := rfl
    rw [h1]
    unfold applyModification mapFromIndex
    norm_num [setRotationChecked, jsMod, ratTrunc]
  · have h : (270 : ℚ) + 90 = 360 := by norm_num
    rw [h, normalizeAngle_360]

/-- Claim C3 amended: for every targeted in-range page whose current stored
rotation plus the angle is a multiple of 90 (the pdf-lib assertion), the
rotate modification stores exactly `current rotation + angle`, with no
mod-360 normalisation; the stored value is congruent to the value the claim
demands, `(current + angle) mod 360`, but need not lie in `[0, 360)`. -/
theorem applyModifications_rotate_amended (doc : List Page) (indices : List ℤ)
    (angle : ℚ) (i : Nat) (d : Page)
    (hi : i < doc.length) (hmem : (i : ℤ) ∈ indices)
    (hmult : jsMod ((doc.getD i d).rotation + angle) 90 = 0) :
    ((applyModifications doc [.rotate indices angle]).getD i d).rotation
        = (doc.getD i d).rotation + angle ∧
      normalizeAngle
          ((applyModifications doc [.rotate indices angle]).getD i d).rotation
        = normalizeAngle ((doc.getD i d).rotation + angle) := by
  have h1 : applyModifications doc [.rotate indices angle] =
      applyModification doc (.rotate indices angle) := rfl
  have hrot : ((applyModifications doc [.rotate indices angle]).getD i d).rotation
      = (doc.getD i d).rotation + angle := by
    rw [h1]
    show ((mapFromIndex _ 0 doc).getD i d).rotation = _
    rw [mapFromIndex_getD _ d doc 0 i hi]
    simp only [Nat.zero_add]
    rw [if_pos hmem]
    unfold setRotationChecked
    rw [if_pos hmult]
  exact ⟨hrot, by rw [hrot]⟩

/-- Witness for the amended Claim C3. -/
theorem applyModifications_rotate_amended_witness :
    ((applyModifications [⟨100, 200, 270, [], []⟩]
        [.rotate [0] 90]).getD 0 ⟨0, 0, 0, [], []⟩).rotation
        = (([⟨100, 200, 270, [], []⟩] : List Page).getD 0 ⟨0, 0, 0, [], []⟩).rotation + 90 ∧
      normalizeAngle
          ((applyModifications [⟨100, 200, 270, [], []⟩]
            [.rotate [0] 90]).getD 0 ⟨0, 0, 0, [], []⟩).rotation
        = normalizeAngle
            ((([⟨100, 200, 270, [], []⟩] : List Page).getD 0 ⟨0, 0, 0, [], []⟩).rotation + 90) :=
  applyModifications_rotate_amended [⟨100, 200, 270, [], []⟩] [0] 90 0 ⟨0, 0, 0, [], []⟩
    (by norm_num) (by norm_num)
    (by show jsMod ((270 : ℚ) + 90) 90 = 0
        rw [show (270 : ℚ) + 90 = 360 from by norm_num]
        exact jsMod_360_90)

/-- Claim C10: the worker treats `pageIndices` as a set (only membership
matters), silently ignores indices outside `[0, pageCount)`, and leaves
every untargeted page completely unchanged. -/
theorem applyModifications_set_semantics (doc : List Page) (m : PageModification)
    (d : Page) :
    (∀ l' : List ℤ, (∀ j : ℤ, j ∈ l' ↔ j ∈ m.pageIndices) →
        applyModifications doc [m.withPageIndices l'] = applyModifications doc [m]) ∧
      applyModifications doc
          [m.withPageIndices
            (m.pageIndices.filter (fun j => decide (0 ≤ j ∧ j < (doc.length : ℤ))))]
        = applyModifications doc [m] ∧
      ∀ i : Nat, i < doc.length → (i : ℤ) ∉ m.pageIndices →
        (applyModifications doc [m]).getD i d = doc.getD i d := by
  have happly : ∀ m' : PageModification,
      applyModifications doc [m'] = applyModification doc m' := fun _ => rfl
  refine ⟨?_, ?_, ?_⟩
  · intro l' hl'
    rw [happly, happly]
    rcases m with ⟨indices, angle⟩ | ⟨indices⟩ <;>
    · unfold applyModification
      apply mapFromIndex_congr_bounded
      intro i x _ _
      exact if_congr (hl' (i : ℤ)) rfl rfl
  · rw [happly, happly]
    rcases m with ⟨indices, angle⟩ | ⟨indices⟩ <;>
    · unfold applyModification PageModification.pageIndices
      apply mapFromIndex_congr_bounded
      intro i x _ hi
      refine if_congr ?_ rfl rfl
      constructor
      · intro h
        exact (List.mem_filter.mp h).1
      · intro h
        refine List.mem_filter.mpr ⟨h, ?_⟩
        rw [decide_eq_true_eq]
        refine ⟨Int.ofNat_nonneg i, ?_⟩
        simp only [Nat.zero_add] at hi
        exact_mod_cast hi
  · intro i hi hmem
    rw [happly]
    rcases m with ⟨indices, angle⟩ | ⟨indices⟩ <;>
    · unfold applyModification
      rw [mapFromIndex_getD _ d doc 0 i hi]
      simp only [Nat.zero_add]
      exact if_neg hmem

/-- Witness for Claim C10 on a two-page document: duplicated index list,
an out-of-range index filtered away, and the untargeted page 1 unchanged. -/
theorem applyModifications_set_semantics_witness :
    applyModifications [⟨100, 200, 270, [], []⟩, ⟨30, 40, 90, [], []⟩]
        [.rotate [0, 0] 90]
      = applyModifications [⟨100, 200, 270, [], []⟩, ⟨30, 40, 90, [], []⟩]
        [.rotate [0] 90] ∧
      (applyModifications [⟨100, 200, 270, [], []⟩, ⟨30, 40, 90, [], []⟩]
          [.rotate [0] 90]).getD 1 ⟨0, 0, 0, [], []⟩
        = ([⟨100, 200, 270, [], []⟩, ⟨30, 40, 90, [], []⟩] : List Page).getD 1
            ⟨0, 0, 0, [], []⟩ :=
  ⟨(applyModifications_set_semantics
      [⟨100, 200, 270, [], []⟩, ⟨30, 40, 90, [], []⟩]
      (.rotate [0] 90) ⟨0, 0, 0, [], []⟩).1 [0, 0]
      (by intro j; simp [PageModification.pageIndices]),
    (applyModifications_set_semantics
      [⟨100, 200, 270, [], []⟩, ⟨30, 40, 90, [], []⟩]
      (.rotate [0] 90) ⟨0, 0, 0, [], []⟩).2.2 1 (by norm_num)
      (by simp [PageModification.pageIndices])⟩

/-! ### Security normalizer (`src/lib/pdf-security.ts`)

The pdf-lib calls wrapped in try/catch by `normalizePdfForEditing` enter
the model as oracle fields of `ParsedPdf`: the outcome of the Perms and
signature probes (either a thrown error or a boolean), and the outcomes of
the two remediation serialisations (`copyPagesIntoFreshDocument` and the
in-place strip plus save).  `Option ParsedPdf` models whether
`PDFDocument.load` succeeds at all. -/

abbrev Bytes := List Nat

structure ParsedPdf where
  isEncrypted : Bool
  permsProbe : Except Unit Bool
  sigProbe : Except Unit Bool
  copyToFresh : Except Unit Bytes
  stripSave : Except Unit Bytes

structure NormalizeResult where
  bytes : Bytes
  bypassApplied : Bool
  reasons : List String
deriving DecidableEq

/-- `getBypassReasons`: the `Set` preserves insertion order — encryption,
then certification, then signature; a probe that throws contributes no
reason. -/
def getBypassReasons (doc : ParsedPdf) : List String :=
  (if doc.isEncrypted then ["encryption"] else []) ++
    (match doc.permsProbe with
     | .ok true => ["certification"]
     | _ => []) ++
    (match doc.sigProbe with
     | .ok true => ["signature"]
     | _ => [])

/-- `normalizePdfForEditing`: load (or bail out unchanged), detect reasons,
then try copy-to-fresh, then in-place strip, then give up unchanged. -/
def normalizePdfForEditing (bytes : Bytes) (parsed : Option ParsedPdf) :
    NormalizeResult :=
  match parsed with
  | none => ⟨bytes, false, []⟩
  | some sourceDoc =>
    let reasons := getBypassReasons sourceDoc
    if reasons = [] then ⟨bytes, false, reasons⟩
    else
      match sourceDoc.copyToFresh with
      | .ok unlockedBytes => ⟨unlockedBytes, true, reasons⟩
      | .error _ =>
        match sourceDoc.stripSave with
        | .ok rewrittenBytes => ⟨rewrittenBytes, true, reasons⟩
        | .error _ => ⟨bytes, false, reasons⟩

/-- Claim C4: a parsed document with no bypass reasons is returned as the
identical input bytes with `bypassApplied = false`. -/
theorem normalizePdfForEditing_no_reasons (bytes : Bytes) (doc : ParsedPdf)
    (h : getBypassReasons doc = []) :
    normalizePdfForEditing bytes (some doc) = ⟨bytes, false, []⟩ := by
  unfold normalizePdfForEditing
  dsimp only
  rw [if_pos h, h]

/-- Witness for Claim C4: a parse result that is not encrypted, whose Perms
probe finds nothing and whose signature probe throws. -/
theorem normalizePdfForEditing_no_reasons_witness :
    normalizePdfForEditing [5]
        (some ⟨false, Except.ok false, Except.error (), Except.ok [1], Except.ok [2]⟩)
      = ⟨[5], false, []⟩ :=
  normalizePdfForEditing_no_reasons [5]
    ⟨false, Except.ok false, Except.error (), Except.ok [1], Except.ok [2]⟩ rfl

/-- Claim C5: with at least one detected reason, copy-to-fresh is tried
first, the in-place strip is the fallback, and when both remediations fail
the original bytes come back with `bypassApplied = false` and the detected
reasons still reported. -/
theorem normalizePdfForEditing_escalation (bytes : Bytes) (doc : ParsedPdf)
    (h : getBypassReasons doc ≠ []) :
    (∀ b, doc.copyToFresh = .ok b →
        normalizePdfForEditing bytes (some doc) = ⟨b, true, getBypassReasons doc⟩) ∧
      (∀ e b, doc.copyToFresh = .error e → doc.stripSave = .ok b →
        normalizePdfForEditing bytes (some doc) = ⟨b, true, getBypassReasons doc⟩) ∧
      (∀ e e', doc.copyToFresh = .error e → doc.stripSave = .error e' →
        normalizePdfForEditing bytes (some doc) = ⟨bytes, false, getBypassReasons doc⟩) := by
  refine ⟨?_, ?_, ?_⟩
  · intro b hb
    unfold normalizePdfForEditing
    dsimp only
    rw [if_neg h, hb]
  · intro e b he hb
    unfold normalizePdfForEditing
    dsimp only
    rw [if_neg h, he, hb]
  · intro e e' he he'
    unfold normalizePdfForEditing
    dsimp only
    rw [if_neg h, he, he']

/-- Witness for Claim C5: an encrypted document on which both remediation
steps fail; the original bytes and the reasons are reported. -/
theorem normalizePdfForEditing_escalation_witness :
    normalizePdfForEditing [7]
        (some ⟨true, Except.ok false, Except.ok false, Except.error (), Except.error ()⟩)
      = ⟨[7], false,
          getBypassReasons
            ⟨true, Except.ok false, Except.ok false, Except.error (), Except.error ()⟩⟩ :=
  (normalizePdfForEditing_escalation [7]
      ⟨true, Except.ok false, Except.ok false, Except.error (), Except.error ()⟩
      (by simp [getBypassReasons])).2.2 () () rfl rfl

/-- Claim C9: when the object-model parser cannot load the bytes at all,
`normalizePdfForEditing` returns the input unchanged with
`bypassApplied = false` and an empty reasons list. -/
theorem normalizePdfForEditing_unparseable (bytes : Bytes) :
    normalizePdfForEditing bytes none = ⟨bytes, false, []⟩ := rfl

/-! ### Readability probe dispatch (`prepareEditablePdfBytes`, App.tsx
lines 457-490).  `canReadAllPages` opens the normalized bytes and reads
the size and rotation of every page; its outcome and the rasterization result
enter the model as oracles. -/

structure PrepareEnv where
  parse : Option ParsedPdf
  canReadAllPages : Bytes → Bool
  rasterizePdfToEditableA4 : Bytes → Bytes

structure EditablePdfPreparation where
  bytes : Bytes
  imageOnly : Bool
deriving DecidableEq

/-- `prepareEditablePdfBytes`: normalize, probe readability, and take the
structural path only when no bypass was applied AND the probe succeeded;
otherwise rasterize the original bytes. -/
def prepareEditablePdfBytes (pdfBytes : Bytes) (env : PrepareEnv) :
    EditablePdfPreparation :=
  let normalized := normalizePdfForEditing pdfBytes env.parse
  let canReadNormalized := env.canReadAllPages normalized.bytes
  if normalized.bypassApplied = false ∧ canReadNormalized = true then
    ⟨normalized.bytes, false⟩
  else
    ⟨env.rasterizePdfToEditableA4 pdfBytes, true⟩

def readableBypassedParse : ParsedPdf :=
  ⟨true, Except.ok false, Except.ok false, Except.ok [1], Except.ok [2]⟩

def readableBypassedEnv : PrepareEnv :=
  ⟨some readableBypassedParse, fun _ => true, fun _ => [9]⟩

/-- Counterexample for Claim C2: an encrypted input whose normalized bytes
are perfectly readable (the probe returns true for every input) is still
sent down the rasterization path, because `bypassApplied = true` alone
forces rasterization; the readability probe does not decide the path by
itself. -/
theorem prepareEditablePdfBytes_probe_not_sole_decider_cex :
    readableBypassedEnv.canReadAllPages
        (normalizePdfForEditing [0] readableBypassedEnv.parse).bytes = true ∧
      (prepareEditablePdfBytes [0] readableBypassedEnv).imageOnly = true := by
  constructor
  · rfl
  · have hbp : (normalizePdfForEditing [0] readableBypassedEnv.parse).bypassApplied
        = true := by
      show (normalizePdfForEditing [0] (some readableBypassedParse)).bypassApplied = true
      unfold normalizePdfForEditing readableBypassedParse
      norm_num [getBypassReasons]
    unfold prepareEditablePdfBytes
    rw [if_neg]
    intro hcon
    rw [hbp] at hcon
    exact absurd hcon.1 (by simp)

/-- Claim C2 amended: after security normalization the structural
(non-rasterized) path is taken exactly when the bypass was not applied and
the readability probe succeeds on the normalized bytes; in that case the
normalized bytes are returned, and otherwise the rasterization of the
original input is returned with `imageOnly = true`. -/
theorem prepareEditablePdfBytes_amended (pdfBytes : Bytes) (env : PrepareEnv) :
    ((prepareEditablePdfBytes pdfBytes env).imageOnly = false ↔
      (normalizePdfForEditing pdfBytes env.parse).bypassApplied = false ∧
        env.canReadAllPages (normalizePdfForEditing pdfBytes env.parse).bytes = true) ∧
      ((prepareEditablePdfBytes pdfBytes env).imageOnly = false →
        (prepareEditablePdfBytes pdfBytes env).bytes
          = (normalizePdfForEditing pdfBytes env.parse).bytes) ∧
      ((prepareEditablePdfBytes pdfBytes env).imageOnly = true →
        (prepareEditablePdfBytes pdfBytes env).bytes
          = env.rasterizePdfToEditableA4 pdfBytes) := by
  unfold prepareEditablePdfBytes
  dsimp only
  split_ifs with h
  · refine ⟨⟨fun _ => h, fun _ => rfl⟩, fun _ => rfl, fun hcon => ?_⟩
    cases hcon
  · refine ⟨⟨fun hcon => ?_, fun h' => absurd h' h⟩, fun hcon => ?_, fun _ => rfl⟩
    · cases hcon
    · cases hcon

/-- Witness for the amended Claim C2: a clean parse with a succeeding
probe takes the structural path and keeps the normalized bytes. -/
theorem prepareEditablePdfBytes_amended_witness :
    ((prepareEditablePdfBytes [3]
        ⟨some ⟨false, Except.ok false, Except.ok false, Except.ok [1], Except.ok [2]⟩,
          fun _ => true, fun _ => [9]⟩).imageOnly = false →
      (prepareEditablePdfBytes [3]
          ⟨some ⟨false, Except.ok false, Except.ok false, Except.ok [1], Except.ok [2]⟩,
            fun _ => true, fun _ => [9]⟩).bytes
        = (normalizePdfForEditing [3]
            (some ⟨false, Except.ok false, Except.ok false, Except.ok [1],
              Except.ok [2]⟩)).bytes) ∧
      (prepareEditablePdfBytes [3]
          ⟨some ⟨false, Except.ok false, Except.ok false, Except.ok [1], Except.ok [2]⟩,
            fun _ => true, fun _ => [9]⟩).imageOnly = false :=
  ⟨(prepareEditablePdfBytes_amended [3]
      ⟨some ⟨false, Except.ok false, Except.ok false, Except.ok [1], Except.ok [2]⟩,
        fun _ => true, fun _ => [9]⟩).2.1,
    (prepareEditablePdfBytes_amended [3]
      ⟨some ⟨false, Except.ok false, Except.ok false, Except.ok [1], Except.ok [2]⟩,
        fun _ => true, fun _ => [9]⟩).1.mpr ⟨by simp [normalizePdfForEditing, getBypassReasons], rfl⟩⟩

/-! ### Signature-field detection (`pdf-security.ts` lines 23-63)

A form-field graph is a finite set of field dictionaries (`Fin n`), each
carrying whether its `FT` entry is `/Sig`, whether its `V` entry is a
dictionary, and the list of its `Kids` entries that resolve to field
dictionaries.  The graph may be cyclic or self-referential.  The mutable
`visited` JavaScript `Set` keyed by object identity is threaded as a
`Finset`: `hasSignatureFieldList` processes a worklist of sibling fields
exactly as the source loops do, returning the result and the grown visited
set; the subtype records that the visited set only grows, which also
provides the termination measure (unvisited fields strictly decrease
whenever a new field is inspected, so each field is inspected at most
once and the traversal terminates on every finite graph). -/

structure SigGraph (n : Nat) where
  isSig : Fin n → Bool
  hasV : Fin n → Bool
  kids : Fin n → List (Fin n)

/-- A field satisfies the detector when its type is `/Sig` or it carries a
value dictionary. -/
def sigMarked {n : Nat} (G : SigGraph n) (f : Fin n) : Bool :=
  G.isSig f || G.hasV f

theorem sdiff_insert_card_lt {n : Nat} {visited : Finset (Fin n)} {f : Fin n}
    (hf : f ∉ visited) :
    ((Finset.univ : Finset (Fin n)) \ insert f visited).card
      < (Finset.univ \ visited).card := by
  apply Finset.card_lt_card
  rw [Finset.ssubset_def]
  constructor
  · exact Finset.sdiff_subset_sdiff (Finset.Subset.refl _) (Finset.subset_insert f visited)
  · intro hsub
    have hf1 : f ∈ (Finset.univ : Finset (Fin n)) \ visited :=
      Finset.mem_sdiff.mpr ⟨Finset.mem_univ f, hf⟩
    have := hsub hf1
    rw [Finset.mem_sdiff] at this
    exact this.2 (Finset.mem_insert_self f visited)

theorem sdiff_card_le_of_subset {n : Nat} {v v' : Finset (Fin n)} (h : v ⊆ v') :
    ((Finset.univ : Finset (Fin n)) \ v').card ≤ (Finset.univ \ v).card :=
  Finset.card_le_card (Finset.sdiff_subset_sdiff (Finset.Subset.refl _) h)

/-- The signature-field traversal on a worklist of fields, threading the
visited set: skip already-visited fields, return true immediately on a
marked field, otherwise recurse into the kids (with the same visited set,
as the mutated JavaScript `Set` is shared) and then continue with the
remaining siblings. -/
def hasSignatureFieldList {n : Nat} (G : SigGraph n) :
    (l : List (Fin n)) → (visited : Finset (Fin n)) →
      {p : Bool × Finset (Fin n) // visited ⊆ p.2}
  | [], visited => ⟨(false, visited), Finset.Subset.refl _⟩
  | f :: rest, visited =>
    if hf : f ∈ visited then
      hasSignatureFieldList G rest visited
    else
      have hsub : visited ⊆ insert f visited := Finset.subset_insert f visited
      if sigMarked G f then ⟨(true, insert f visited), hsub⟩
      else
        let rk := hasSignatureFieldList G (G.kids f) (insert f visited)
        if rk.val.1 then ⟨(true, rk.val.2), hsub.trans rk.property⟩
        else
          let rr := hasSignatureFieldList G rest rk.val.2
          ⟨rr.val, (hsub.trans rk.property).trans rr.property⟩
termination_by l visited => ((Finset.univ \ visited).card, l.length)
decreasing_by
  · apply Prod.Lex.right
    simp
  · apply Prod.Lex.left
    exact sdiff_insert_card_lt hf
  · apply Prod.Lex.left
    exact lt_of_le_of_lt (sdiff_card_le_of_subset rk.property) (sdiff_insert_card_lt hf)

/-- `hasSignatureField` from pdf-security.ts, on a single field. -/
def hasSignatureField {n : Nat} (G : SigGraph n) (field : Fin n)
    (visited : Finset (Fin n)) : Bool :=
  (hasSignatureFieldList G [field] visited).val.1

structure AcroForm (n : Nat) where
  sigFlagsPositive : Bool
  fields : List (Fin n)

/-- `hasSignatureData` from pdf-security.ts: no AcroForm means no signature
data; otherwise a positive `SigFlags` or a signature field reachable from
the `Fields` array (scanned with one shared visited set, starting empty). -/
def hasSignatureData {n : Nat} (G : SigGraph n) : Option (AcroForm n) → Bool
  | none => false
  | some acroForm =>
    acroForm.sigFlagsPositive || (hasSignatureFieldList G acroForm.fields ∅).val.1

/-- Reachability along `Kids` edges. -/
def Reaches {n : Nat} (G : SigGraph n) : Fin n → Fin n → Prop :=
  Relation.ReflTransGen (fun a b => b ∈ G.kids a)

/-- The result component of the traversal. -/
def hasSigRun {n : Nat} (G : SigGraph n) (l : List (Fin n))
    (visited : Finset (Fin n)) : Bool × Finset (Fin n) :=
  (hasSignatureFieldList G l visited).val

theorem hasSigRun_mono {n : Nat} (G : SigGraph n) (l : List (Fin n))
    (visited : Finset (Fin n)) : visited ⊆ (hasSigRun G l visited).2 :=
  (hasSignatureFieldList G l visited).property

theorem hasSigRun_nil {n : Nat} (G : SigGraph n) (visited : Finset (Fin n)) :
    hasSigRun G [] visited = (false, visited) := by
  unfold hasSigRun
  rw [hasSignatureFieldList]

theorem hasSigRun_cons_mem {n : Nat} (G : SigGraph n) {f : Fin n}
    (rest : List (Fin n)) {visited : Finset (Fin n)} (hf : f ∈ visited) :
    hasSigRun G (f :: rest) visited = hasSigRun G rest visited := by
  unfold hasSigRun
  rw [hasSignatureFieldList]
  rw [dif_pos hf]

theorem hasSigRun_cons_marked {n : Nat} (G : SigGraph n) {f : Fin n}
    (rest : List (Fin n)) {visited : Finset (Fin n)} (hf : f ∉ visited)
    (hm : sigMarked G f = true) :
    hasSigRun G (f :: rest) visited = (true, insert f visited) := by
  unfold hasSigRun
  rw [hasSignatureFieldList]
  rw [dif_neg hf]
  simp [hm]

theorem hasSigRun_cons_kids_true {n : Nat} (G : SigGraph n) {f : Fin n}
    (rest : List (Fin n)) {visited : Finset (Fin n)} (hf : f ∉ visited)
    (hm : sigMarked G f = false)
    (hk : (hasSigRun G (G.kids f) (insert f visited)).1 = true) :
    hasSigRun G (f :: rest) visited =
      (true, (hasSigRun G (G.kids f) (insert f visited)).2) := by
  unfold hasSigRun at hk ⊢
  rw [hasSignatureFieldList]
  rw [dif_neg hf]
  simp [hm, hk]

theorem hasSigRun_cons_kids_false {n : Nat} (G : SigGraph n) {f : Fin n}
    (rest : List (Fin n)) {visited : Finset (Fin n)} (hf : f ∉ visited)
    (hm : sigMarked G f = false)
    (hk : (hasSigRun G (G.kids f) (insert f visited)).1 = false) :
    hasSigRun G (f :: rest) visited =
      hasSigRun G rest (hasSigRun G (G.kids f) (insert f visited)).2 := by
  unfold hasSigRun at hk ⊢
  rw [hasSignatureFieldList]
  rw [dif_neg hf]
  simp [hm, hk]

theorem hasSigRun_sound_aux {n : Nat} (G : SigGraph n) :
    ∀ (k : Nat) (visited : Finset (Fin n)) (l : List (Fin n)),
      (Finset.univ \ visited).card = k →
      (hasSigRun G l visited).1 = true →
      ∃ f ∈ l, ∃ r, Reaches G f r ∧ sigMarked G r = true := by
  intro k
  induction k using Nat.strong_induction_on with
  | _ k ihk =>
    intro visited l
    induction l with
    | nil =>
      intro _ h
      rw [hasSigRun_nil] at h
      cases h
    | cons f rest ihl =>
      intro hk h
      by_cases hf : f ∈ visited
      · rw [hasSigRun_cons_mem G rest hf] at h
        obtain ⟨g, hg, r, hr, hm⟩ := ihl hk h
        exact ⟨g, List.mem_cons_of_mem _ hg, r, hr, hm⟩
      · by_cases hm : sigMarked G f = true
        · exact ⟨f, List.mem_cons_self _ _, f, Relation.ReflTransGen.refl, hm⟩
        · have hm' : sigMarked G f = false := by
            cases hB : sigMarked G f
            · rfl
            · exact absurd hB hm
          by_cases hk1 : (hasSigRun G (G.kids f) (insert f visited)).1 = true
          · obtain ⟨g, hg, r, hr, hmark⟩ :=
              ihk ((Finset.univ \ insert f visited).card)
                (by rw [← hk]; exact sdiff_insert_card_lt hf)
                (insert f visited) (G.kids f) rfl hk1
            exact ⟨f, List.mem_cons_self _ _, r,
              Relation.ReflTransGen.head hg hr, hmark⟩
          · have hk1' : (hasSigRun G (G.kids f) (insert f visited)).1 = false := by
              cases hB : (hasSigRun G (G.kids f) (insert f visited)).1
              · rfl
              · exact absurd hB hk1
            rw [hasSigRun_cons_kids_false G rest hf hm' hk1'] at h
            have hcard : ((Finset.univ : Finset (Fin n)) \
                (hasSigRun G (G.kids f) (insert f visited)).2).card < k := by
              rw [← hk]
              exact lt_of_le_of_lt
                (sdiff_card_le_of_subset
                  (hasSigRun_mono G (G.kids f) (insert f visited)))
                (sdiff_insert_card_lt hf)
            obtain ⟨g, hg, r, hr, hmark⟩ :=
              ihk _ hcard (hasSigRun G (G.kids f) (insert f visited)).2 rest rfl h
            exact ⟨g, List.mem_cons_of_mem _ hg, r, hr, hmark⟩

theorem hasSigRun_sound {n : Nat} (G : SigGraph n) (visited : Finset (Fin n))
    (l : List (Fin n)) (h : (hasSigRun G l visited).1 = true) :
    ∃ f ∈ l, ∃ r, Reaches G f r ∧ sigMarked G r = true :=
  hasSigRun_sound_aux G _ visited l rfl h

theorem hasSigRun_false_post_aux {n : Nat} (G : SigGraph n) :
    ∀ (k : Nat) (visited : Finset (Fin n)) (l : List (Fin n)),
      (Finset.univ \ visited).card = k →
      (hasSigRun G l visited).1 = false →
      (∀ f ∈ l, f ∈ (hasSigRun G l visited).2) ∧
        (∀ g ∈ (hasSigRun G l visited).2, g ∉ visited →
          sigMarked G g = false ∧ ∀ c ∈ G.kids g, c ∈ (hasSigRun G l visited).2) := by
  intro k
  induction k using Nat.strong_induction_on with
  | _ k ihk =>
    intro visited l
    induction l with
    | nil =>
      intro _ _
      rw [hasSigRun_nil]
      refine ⟨?_, ?_⟩
      · intro f hf
        cases hf
      · intro g hg hg'
        exact absurd hg hg'
    | cons f rest ihl =>
      intro hk h
      by_cases hf : f ∈ visited
      · rw [hasSigRun_cons_mem G rest hf] at h ⊢
        obtain ⟨ha, hb⟩ := ihl hk h
        refine ⟨?_, hb⟩
        intro x hx
        rcases List.mem_cons.mp hx with rfl | hx
        · exact hasSigRun_mono G rest visited hf
        · exact ha x hx
      · by_cases hm : sigMarked G f = true
        · rw [hasSigRun_cons_marked G rest hf hm] at h
          cases h
        · have hm' : sigMarked G f = false := by
            cases hB : sigMarked G f
            · rfl
            · exact absurd hB hm
          by_cases hk1 : (hasSigRun G (G.kids f) (insert f visited)).1 = true
          · rw [hasSigRun_cons_kids_true G rest hf hm' hk1] at h
            cases h
          · have hk1' : (hasSigRun G (G.kids f) (insert f visited)).1 = false := by
              cases hB : (hasSigRun G (G.kids f) (insert f visited)).1
              · rfl
              · exact absurd hB hk1
            rw [hasSigRun_cons_kids_false G rest hf hm' hk1'] at h ⊢
            have hcard1 : ((Finset.univ : Finset (Fin n)) \ insert f visited).card < k := by
              rw [← hk]
              exact sdiff_insert_card_lt hf
            obtain ⟨Ka, Kb⟩ :=
              ihk _ hcard1 (insert f visited) (G.kids f) rfl hk1'
            have hcard2 : ((Finset.univ : Finset (Fin n)) \
                (hasSigRun G (G.kids f) (insert f visited)).2).card < k := by
              rw [← hk]
              exact lt_of_le_of_lt
                (sdiff_card_le_of_subset
                  (hasSigRun_mono G (G.kids f) (insert f visited)))
                (sdiff_insert_card_lt hf)
            obtain ⟨Ra, Rb⟩ :=
              ihk _ hcard2 (hasSigRun G (G.kids f) (insert f visited)).2 rest rfl h
            have hKmono : insert f visited ⊆
                (hasSigRun G (G.kids f) (insert f visited)).2 :=
              hasSigRun_mono G (G.kids f) (insert f visited)
            have hRmono : (hasSigRun G (G.kids f) (insert f visited)).2 ⊆
                (hasSigRun G rest (hasSigRun G (G.kids f) (insert f visited)).2).2 :=
              hasSigRun_mono G rest _
            refine ⟨?_, ?_⟩
            · intro x hx
              rcases List.mem_cons.mp hx with rfl | hx
              · exact hRmono (hKmono (Finset.mem_insert_self x visited))
              · exact Ra x hx
            · intro g hg hgvis
              by_cases hgK : g ∈ (hasSigRun G (G.kids f) (insert f visited)).2
              · by_cases hgf : g = f
                · subst hgf
                  refine ⟨hm', ?_⟩
                  intro c hc
                  exact hRmono (Ka c hc)
                · have hgins : g ∉ insert f visited := by
                    intro hcon
                    rcases Finset.mem_insert.mp hcon with rfl | hcon
                    · exact hgf rfl
                    · exact hgvis hcon
                  obtain ⟨hgm, hgk⟩ := Kb g hgK hgins
                  exact ⟨hgm, fun c hc => hRmono (hgk c hc)⟩
              · obtain ⟨hgm, hgk⟩ := Rb g hg hgK
                exact ⟨hgm, hgk⟩

theorem hasSigRun_false_post {n : Nat} (G : SigGraph n) (visited : Finset (Fin n))
    (l : List (Fin n)) (h : (hasSigRun G l visited).1 = false) :
    (∀ f ∈ l, f ∈ (hasSigRun G l visited).2) ∧
      (∀ g ∈ (hasSigRun G l visited).2, g ∉ visited →
        sigMarked G g = false ∧ ∀ c ∈ G.kids g, c ∈ (hasSigRun G l visited).2) :=
  hasSigRun_false_post_aux G _ visited l rfl h

theorem hasSigRun_complete {n : Nat} (G : SigGraph n) (fields : List (Fin n))
    (f : Fin n) (hf : f ∈ fields) (r : Fin n) (hr : Reaches G f r)
    (hm : sigMarked G r = true) :
    (hasSigRun G fields ∅).1 = true := by
  cases hres : (hasSigRun G fields ∅).1
  · exfalso
    obtain ⟨ha, hb⟩ := hasSigRun_false_post G ∅ fields hres
    have hclosed : ∀ g ∈ (hasSigRun G fields ∅).2,
        sigMarked G g = false ∧ ∀ c ∈ G.kids g, c ∈ (hasSigRun G fields ∅).2 :=
      fun g hg => hb g hg (Finset.not_mem_empty g)
    have hreach_in : ∀ x, Reaches G f x → x ∈ (hasSigRun G fields ∅).2 := by
      intro x hx
      induction hx with
      | refl => exact ha f hf
      | tail _ hedge ih => exact (hclosed _ ih).2 _ hedge
    have hfalse := (hclosed r (hreach_in r hr)).1
    rw [hm] at hfalse
    cases hfalse
  · rfl

/-- Claim C8: the signature-detection traversal is a total function on every
finite (possibly cyclic) field graph — `hasSignatureFieldList` is defined by
well-founded recursion on the number of unvisited fields, so each field is
inspected at most once via the visited set — and `hasSignatureData` returns
true exactly when SigFlags is positive or some field reachable from the
Fields array along Kids edges has type `/Sig` or carries a value
dictionary. -/
theorem hasSignatureData_iff {n : Nat} (G : SigGraph n) (af : AcroForm n) :
    hasSignatureData G (some af) = true ↔
      (af.sigFlagsPositive = true ∨
        ∃ f ∈ af.fields, ∃ r, Reaches G f r ∧ sigMarked G r = true) := by
  unfold hasSignatureData
  rw [Bool.or_eq_true]
  constructor
  · rintro (h | h)
    · exact Or.inl h
    · exact Or.inr (hasSigRun_sound G ∅ af.fields h)
  · rintro (h | ⟨f, hf, r, hr, hm⟩)
    · exact Or.inl h
    · exact Or.inr (hasSigRun_complete G af.fields f hf r hr hm)

end LegalDocOrganiser
